import Mathlib

/-!
Verification development for the wfbuddy screen-recognition core
(`src/ie/src/image.rs` and `src/ie/src/screen/relicreward.rs`).

Modelling conventions:
* Machine integers (`u8`, `u32`, `usize`) are modelled as `ℕ`.  The Rust code
  uses saturating arithmetic (`saturating_sub`, `saturating_add`) in the places
  the claims touch, which coincides with truncated `ℕ` subtraction; where a
  non-saturating `u32` multiplication can wrap (release-mode semantics) we keep
  an explicit `% 2 ^ 32`.
* `f32` values that the code only ever builds from small integers, compares, or
  rounds are modelled as exact rationals (`ℚ`).  All concrete inputs used in
  counterexamples and witnesses are far from any binary-rounding boundary.
* External collaborators are abstracted exactly as the repository treats them:
  the OCR engine is an opaque `Image → String` capability, and the
  `imageproc`-based contour segmentation `detect_reward_slots` enters as the
  detected slot list parameter.  The `fast_image_resize` resampler only affects
  pixel data, never dimensions, so resizing is modelled at the dimension level.
-/

namespace WfBuddy

/-- 3-channel color, `Color` of `image.rs` (fields `r`, `g`, `b : u8`). -/
structure Color where
  r : ℕ
  g : ℕ
  b : ℕ
deriving DecidableEq

/-- `Color::BLACK`. -/
def Color.BLACK : Color := ⟨0, 0, 0⟩

/-- `Color::WHITE`. -/
def Color.WHITE : Color := ⟨255, 255, 255⟩

/-- `Color::deviation` of `image.rs` lines 735-739: the non-linear perceptual
distance `((|Δr|/255/3 + |Δg|/255/3 + |Δb|/255/3) / 0.05)^3`, with `f32`
arithmetic modelled over `ℚ`. -/
def Color.deviation (a other : Color) : ℚ :=
  ((|(a.r : ℚ) - other.r| / 255 / 3 +
    |(a.g : ℚ) - other.g| / 255 / 3 +
    |(a.b : ℚ) - other.b| / 255 / 3) / (5 / 100)) ^ 3

/-- Integer Rec.601 luma approximation used by `average_deviation_masked`
(`image.rs` lines 403-407): `(r*77 + g*150 + b*29) >> 8`; `u16` arithmetic
cannot overflow for 8-bit channels. -/
def Color.luma (c : Color) : ℕ := (c.r * 77 + c.g * 150 + c.b * 29) / 256

/-- `f32::MAX`, the shape-mismatch sentinel of `average_deviation_masked`,
as an exact rational: `(2 - 2⁻²³) · 2¹²⁷`. -/
def f32_MAX : ℚ := 2 ^ 128 - 2 ^ 104

/-- Rust `f32::round` (half away from zero) for the non-negative quantities the
code rounds, followed by the `as u32` cast. -/
def rround (q : ℚ) : ℕ := (⌊q + 1 / 2⌋).toNat

/-- The sampled UI theme (`Theme` of `theme.rs`): two reference colors. -/
structure Theme where
  primary : Color
  secondary : Color
deriving DecidableEq

/-- Borrowed view `Image<'a>` of `image.rs`: rectangle `(x1,y1,x2,y2)` over a
row-major buffer with true stride `true_width`. -/
structure Image where
  x1 : ℕ
  y1 : ℕ
  x2 : ℕ
  y2 : ℕ
  true_width : ℕ
  data : List Color
deriving DecidableEq

/-- `Image::width`. -/
def Image.width (v : Image) : ℕ := v.x2 - v.x1

/-- `Image::height`. -/
def Image.height (v : Image) : ℕ := v.y2 - v.y1

/-- `Image::pixel`: `data[x + y * true_width]` (absolute coordinates). -/
def Image.pixel (v : Image) (x y : ℕ) : Color :=
  v.data.getD (x + y * v.true_width) Color.BLACK

/-- `Image::trimmed_left` (`image.rs` lines 232-243): `size = width.min(self.width())`. -/
def Image.trimmed_left (v : Image) (width : ℕ) : Image :=
  { v with x2 := v.x1 + min width v.width }

/-- `Image::trimmed_right` (`image.rs` lines 246-257): `x1 = x2 - size`. -/
def Image.trimmed_right (v : Image) (width : ℕ) : Image :=
  { v with x1 := v.x2 - min width v.width }

/-- `Image::trimmed_centerh` (`image.rs` lines 260-273): the clamped size is
forced even by `(size >> 1) << 1` (written `/ 2 * 2`), then `spacing =
(width - size) / 2` is trimmed off both sides. -/
def Image.trimmed_centerh (v : Image) (width : ℕ) : Image :=
  { v with
    x1 := v.x1 + (v.width - min width v.width / 2 * 2) / 2
    x2 := v.x2 - (v.width - min width v.width / 2 * 2) / 2 }

/-- `Image::trimmed_top` (`image.rs` lines 276-287). -/
def Image.trimmed_top (v : Image) (height : ℕ) : Image :=
  { v with y2 := v.y1 + min height v.height }

/-- `Image::trimmed_bottom` (`image.rs` lines 290-301). -/
def Image.trimmed_bottom (v : Image) (height : ℕ) : Image :=
  { v with y1 := v.y2 - min height v.height }

/-- `Image::trimmed_centerv` (`image.rs` lines 304-317). -/
def Image.trimmed_centerv (v : Image) (height : ℕ) : Image :=
  { v with
    y1 := v.y1 + (v.height - min height v.height / 2 * 2) / 2
    y2 := v.y2 - (v.height - min height v.height / 2 * 2) / 2 }

/-- `Image::sub_image` (`image.rs` lines 319-333): the offsets are first
clamped to the view's dimensions, then the sizes to the remaining extent. -/
def Image.sub_image (v : Image) (x y width height : ℕ) : Image :=
  { v with
    x1 := v.x1 + min x v.width
    y1 := v.y1 + min y v.height
    x2 := v.x1 + min x v.width + min width (v.width - min x v.width)
    y2 := v.y1 + min y v.height + min height (v.height - min y v.height) }

/-- The result rectangle lies inside the source view's rectangle. -/
def Image.inBoundsOf (r v : Image) : Prop :=
  v.x1 ≤ r.x1 ∧ r.x1 ≤ r.x2 ∧ r.x2 ≤ v.x2 ∧
  v.y1 ≤ r.y1 ∧ r.y1 ≤ r.y2 ∧ r.y2 ≤ v.y2

/-- C7: sub-view and trim operators stay within the source view's rectangle
(no panic: every `u32` subtraction they perform is non-truncating under the
view invariant `x1 ≤ x2`, `y1 ≤ y2`), and the edge-aligned operators and
`sub_image` clamp the requested size exactly to `min(requested, available)`.
The centered trims additionally round the clamped size down to even before
splitting, so their result dimension is `source - 2·⌊(source - even-size)/2⌋`,
which can exceed `min(requested, available)` by one (see the counterexample);
for them only the bounds part is asserted here. -/
theorem trim_sub_image_bounds (v : Image) (w h x y rw rh : ℕ)
    (hx : v.x1 ≤ v.x2) (hy : v.y1 ≤ v.y2) :
    ((v.trimmed_left w).inBoundsOf v ∧
       (v.trimmed_left w).width = min w v.width ∧
       (v.trimmed_left w).height = v.height) ∧
    ((v.trimmed_right w).inBoundsOf v ∧
       (v.trimmed_right w).width = min w v.width ∧
       (v.trimmed_right w).height = v.height) ∧
    ((v.trimmed_top h).inBoundsOf v ∧
       (v.trimmed_top h).height = min h v.height ∧
       (v.trimmed_top h).width = v.width) ∧
    ((v.trimmed_bottom h).inBoundsOf v ∧
       (v.trimmed_bottom h).height = min h v.height ∧
       (v.trimmed_bottom h).width = v.width) ∧
    (v.trimmed_centerh w).inBoundsOf v ∧
    (v.trimmed_centerv h).inBoundsOf v ∧
    ((v.sub_image x y rw rh).inBoundsOf v ∧
       (v.sub_image x y rw rh).width = min rw (v.width - min x v.width) ∧
       (v.sub_image x y rw rh).height = min rh (v.height - min y v.height)) := by
  refine ⟨?_, ?_, ?_, ?_, ?_, ?_, ?_⟩ <;>
    simp only [Image.trimmed_left, Image.trimmed_right, Image.trimmed_top,
      Image.trimmed_bottom, Image.trimmed_centerh, Image.trimmed_centerv,
      Image.sub_image, Image.inBoundsOf, Image.width, Image.height, min_def,
      and_true, true_and] <;>
    split_ifs <;>
    omega

/-- C7 counterexample: on a 5-pixel-wide view, `trimmed_centerh 2` returns a
view of width 3, not the claimed clamp `min 2 5 = 2`. -/
theorem trimmed_centerh_not_min_clamp :
    (Image.trimmed_centerh ⟨0, 0, 5, 1, 5, []⟩ 2).width = 3 ∧
      min 2 (Image.width ⟨0, 0, 5, 1, 5, []⟩) = 2 := by decide

/-- C7 witness: the bounds/clamp theorem applied to a concrete view. -/
theorem trim_sub_image_bounds_witness :
    (Image.trimmed_left ⟨1, 1, 4, 3, 6, []⟩ 2).width =
      min 2 (Image.width ⟨1, 1, 4, 3, 6, []⟩) :=
  (trim_sub_image_bounds ⟨1, 1, 4, 3, 6, []⟩ 2 1 0 0 1 1
    (by decide) (by decide)).1.2.1

/-- C8 (amended): each centered trim produces equal margins on the two trimmed
sides, and the result dimension has the same parity as the source dimension —
so it is even whenever the source dimension is even, but odd sources yield odd
results (the original evenness claim fails, see the counterexample). -/
theorem trimmed_center_margins_parity (v : Image) (w h : ℕ)
    (hx : v.x1 ≤ v.x2) (hy : v.y1 ≤ v.y2) :
    ((v.trimmed_centerh w).x1 - v.x1 = v.x2 - (v.trimmed_centerh w).x2) ∧
    (v.trimmed_centerh w).width % 2 = v.width % 2 ∧
    ((v.trimmed_centerv h).y1 - v.y1 = v.y2 - (v.trimmed_centerv h).y2) ∧
    (v.trimmed_centerv h).height % 2 = v.height % 2 := by
  simp only [Image.trimmed_centerh, Image.trimmed_centerv, Image.width,
    Image.height, min_def]
  split_ifs <;> omega

/-- C8 counterexample: on a 7-pixel-wide view, `trimmed_centerh 4` returns a
view whose width is 5 — odd, not even as claimed. -/
theorem trimmed_centerh_odd_result :
    (Image.trimmed_centerh ⟨0, 0, 7, 1, 7, []⟩ 4).width = 5 ∧
      (Image.trimmed_centerh ⟨0, 0, 7, 1, 7, []⟩ 4).width % 2 = 1 := by decide

/-- C8 witness: margins/parity theorem applied to a concrete view. -/
theorem trimmed_center_margins_parity_witness :
    (Image.trimmed_centerh ⟨0, 0, 6, 2, 6, []⟩ 4).width % 2 =
      Image.width ⟨0, 0, 6, 2, 6, []⟩ % 2 :=
  (trimmed_center_margins_parity ⟨0, 0, 6, 2, 6, []⟩ 4 2
    (by decide) (by decide)).2.1

/-- Owned pixel buffer `OwnedImage` of `image.rs`. -/
structure OwnedImage where
  width : ℕ
  height : ℕ
  data : List Color
deriving DecidableEq

/-- `bytes.chunks_exact(4).map(|v| Color::new(v[0], v[1], v[2]))` of
`OwnedImage::from_rgba`: every complete 4-byte RGBA group yields one color
(alpha dropped); a trailing incomplete group is discarded. -/
def chunks4 : List ℕ → List Color
  | r :: g :: b :: _a :: rest => ⟨r, g, b⟩ :: chunks4 rest
  | _ => []

/-- `OwnedImage::from_rgba` (`image.rs` lines 12-24):
`height = bytes.len() / width / 4` (integer divisions). -/
def OwnedImage.from_rgba (width : ℕ) (bytes : List ℕ) : OwnedImage :=
  { width := width, height := bytes.length / width / 4, data := chunks4 bytes }

theorem chunks4_length : ∀ l : List ℕ, (chunks4 l).length = l.length / 4
  | _r :: _g :: _b :: _a :: rest => by
      have ih := chunks4_length rest
      simp only [chunks4, List.length_cons, ih]
      omega
  | [] => by simp [chunks4]
  | [_] => by simp [chunks4]
  | [_, _] => by simp [chunks4]
  | [_, _, _] => by simp [chunks4]

/-- C9 (amended): the pixel-count invariant `data.len == width * height` holds
exactly when `width` divides `bytes.len() / 4`; in particular it holds for any
well-formed RGBA frame (`bytes.len() = 4 * width * height`).  In general
`from_rgba` produces `⌊bytes.len()/4⌋` pixels while `width * height =
width * ⌊bytes.len()/(4·width)⌋`, which differ when the division truncates
(see the counterexample). -/
theorem from_rgba_invariant (width : ℕ) (bytes : List ℕ)
    (_hw : 0 < width) (hdvd : width ∣ bytes.length / 4) :
    (OwnedImage.from_rgba width bytes).data.length =
      width * (OwnedImage.from_rgba width bytes).height := by
  simp only [OwnedImage.from_rgba, chunks4_length]
  rw [Nat.div_div_eq_div_mul, Nat.mul_comm width 4, ← Nat.div_div_eq_div_mul]
  exact (Nat.mul_div_cancel' hdvd).symm

/-- C9 counterexample: `from_rgba` with `width = 3` on a 16-byte buffer makes
4 pixels but `width * height = 3 * 1 = 3`, so the claimed invariant fails for
arbitrary byte sequences. -/
theorem from_rgba_invariant_fails :
    (OwnedImage.from_rgba 3 (List.replicate 16 0)).data.length = 4 ∧
      3 * (OwnedImage.from_rgba 3 (List.replicate 16 0)).height = 3 := by decide

/-- C9 witness: a well-formed 2×1 RGBA buffer (8 bytes) satisfies the
invariant. -/
theorem from_rgba_invariant_witness :
    (OwnedImage.from_rgba 2 (List.replicate 8 0)).data.length =
      2 * (OwnedImage.from_rgba 2 (List.replicate 8 0)).height :=
  from_rgba_invariant 2 (List.replicate 8 0) (by decide) (by decide)

/-- Dimension part of `OwnedImage::resize_h` (`image.rs` lines 55-110): the
new width is `self.width * height / self.height` in `u32` arithmetic (the
product wraps modulo `2^32` in release builds), and the method returns
immediately when the height is unchanged.  Pixel resampling is delegated to
the external `fast_image_resize` library and does not affect dimensions. -/
def resize_h_width (w h height : ℕ) : ℕ :=
  if h = height then w else w * height % 2 ^ 32 / h

/-- C6 (amended): for positive dimensions, a resize to a height `H ≥ h`
(upscaling or equal) whose width product does not overflow `u32`, followed by
a resize back to the original height, changes the width by at most one pixel
(and never increases it).  For `H < h` the width can change arbitrarily (see
the counterexample), so the claim is restricted to non-downscaling round
trips. -/
theorem resize_h_width_roundtrip (w h H : ℕ)
    (_hw : 0 < w) (hh : 0 < h) (hhH : h ≤ H) (hof : w * H < 2 ^ 32) :
    w - 1 ≤ resize_h_width (resize_h_width w h H) H h ∧
      resize_h_width (resize_h_width w h H) H h ≤ w := by
  by_cases heq : h = H
  · subst heq
    simp [resize_h_width]
  · have hH : 0 < H := lt_of_lt_of_le hh hhH
    have h1 : resize_h_width w h H = w * H / h := by
      simp only [resize_h_width, if_neg heq, Nat.mod_eq_of_lt hof]
    set q := w * H / h with hq
    have hqh : q * h ≤ w * H := by
      rw [hq, Nat.mul_comm]
      exact Nat.mul_div_le (w * H) h
    have h2 : resize_h_width q H h = q * h / H := by
      have hne : ¬H = h := fun hc => heq hc.symm
      have hlt : q * h < 2 ^ 32 := lt_of_le_of_lt hqh hof
      simp only [resize_h_width, if_neg hne, Nat.mod_eq_of_lt hlt]
    rw [h1, h2]
    constructor
    · rw [Nat.le_div_iff_mul_le hH]
      have hmod := Nat.div_add_mod (w * H) h
      have hrem : w * H % h < h := Nat.mod_lt _ hh
      have hql : h * q + w * H % h = w * H := hmod
      have hcomm : h * q = q * h := Nat.mul_comm h q
      have hsub : (w - 1) * H = w * H - H := by
        rw [Nat.sub_one_mul]
      omega
    · calc q * h / H ≤ w * H / H := Nat.div_le_div_right hqh
        _ = w := Nat.mul_div_cancel w hH

/-- C6 counterexample: width 5, height 100, resized to height 1 and back,
ends with width 0 — a change of 5 pixels, violating the ≤ 1px claim for
downscaling round trips. -/
theorem resize_h_width_roundtrip_fails :
    resize_h_width (resize_h_width 5 100 1) 1 100 = 0 ∧
      ¬(5 - resize_h_width (resize_h_width 5 100 1) 1 100 ≤ 1) := by decide

/-- C6 witness: 5×2 resized to height 4 and back keeps width 5. -/
theorem resize_h_width_roundtrip_witness :
    5 - 1 ≤ resize_h_width (resize_h_width 5 2 4) 4 2 ∧
      resize_h_width (resize_h_width 5 2 4) 4 2 ≤ 5 :=
  resize_h_width_roundtrip 5 2 4 (by decide) (by decide) (by decide) (by decide)

/-- `r` is the element of `l` with the maximal key that occurs earliest: every
element before it is strictly smaller, every element after it is no larger. -/
def IsFirstMax {α : Type} (key : α → ℤ) (l : List α) (r : α) : Prop :=
  ∃ pre suf, l = pre ++ r :: suf ∧
    (∀ x ∈ pre, key x < key r) ∧ (∀ x ∈ suf, key x ≤ key r)

/-- `r` is the element of `l` with the minimal key that occurs earliest. -/
def IsFirstMin {α : Type} (key : α → ℚ) (l : List α) (r : α) : Prop :=
  ∃ pre suf, l = pre ++ r :: suf ∧
    (∀ x ∈ pre, key r < key x) ∧ (∀ x ∈ suf, key r ≤ key x)

/-- A left fold that replaces its accumulator only on a strictly larger key
computes the earliest maximal element of `b :: l` — the running-best update
pattern of `get_text`. -/
theorem foldl_isFirstMax {α : Type} (key : α → ℤ) :
    ∀ (l : List α) (b : α),
      IsFirstMax key (b :: l)
        (l.foldl (fun x c => if key x < key c then c else x) b) := by
  intro l
  induction l with
  | nil =>
      intro b
      exact ⟨[], [], rfl, by simp, by simp⟩
  | cons c t ih =>
      intro b
      simp only [List.foldl_cons]
      by_cases hc : key b < key c
      · rw [if_pos hc]
        obtain ⟨pre, suf, hsplit, hpre, hsuf⟩ := ih c
        generalize hg : t.foldl (fun x c => if key x < key c then c else x) c = r
          at hsplit hpre hsuf ⊢
        cases pre with
        | nil =>
            simp only [List.nil_append] at hsplit
            injection hsplit with h1 h2
            refine ⟨[b], suf, by rw [h1, h2]; rfl, ?_, hsuf⟩
            intro x hx
            simp only [List.mem_cons, List.not_mem_nil, or_false] at hx
            subst hx
            exact h1 ▸ hc
        | cons p ps =>
            simp only [List.cons_append] at hsplit
            injection hsplit with h1 h2
            refine ⟨b :: p :: ps, suf, by rw [h1, h2]; rfl, ?_, hsuf⟩
            intro x hx
            simp only [List.mem_cons] at hx
            rcases hx with hx | hx | hx
            · subst hx
              have hpr : key p < key r := hpre p (by simp)
              exact lt_trans (h1 ▸ hc) hpr
            · subst hx
              exact hpre x (by simp)
            · exact hpre x (by simp [hx])
      · rw [if_neg hc]
        obtain ⟨pre, suf, hsplit, hpre, hsuf⟩ := ih b
        generalize hg : t.foldl (fun x c => if key x < key c then c else x) b = r
          at hsplit hpre hsuf ⊢
        cases pre with
        | nil =>
            simp only [List.nil_append] at hsplit
            injection hsplit with h1 h2
            refine ⟨[], c :: t, by rw [← h1]; rfl, by simp, ?_⟩
            intro x hx
            simp only [List.mem_cons] at hx
            rcases hx with hx | hx
            · subst hx
              exact h1 ▸ le_of_not_lt hc
            · exact hsuf x (h2 ▸ hx)
        | cons p ps =>
            simp only [List.cons_append] at hsplit
            injection hsplit with h1 h2
            have hbr : key b < key r := h1 ▸ hpre p (by simp)
            refine ⟨b :: c :: ps, suf, by rw [h2]; rfl, ?_, hsuf⟩
            intro x hx
            simp only [List.mem_cons] at hx
            rcases hx with hx | hx | hx
            · subst hx; exact hbr
            · subst hx
              exact lt_of_le_of_lt (le_of_not_lt hc) hbr
            · exact hpre x (by simp [hx])

/-- A left fold that replaces its accumulator only on a strictly smaller key
computes the earliest minimal element of `b :: l` — the running-best update
pattern of `get_selected`. -/
theorem foldl_isFirstMin {α : Type} (key : α → ℚ) :
    ∀ (l : List α) (b : α),
      IsFirstMin key (b :: l)
        (l.foldl (fun x c => if key c < key x then c else x) b) := by
  intro l
  induction l with
  | nil =>
      intro b
      exact ⟨[], [], rfl, by simp, by simp⟩
  | cons c t ih =>
      intro b
      simp only [List.foldl_cons]
      by_cases hc : key c < key b
      · rw [if_pos hc]
        obtain ⟨pre, suf, hsplit, hpre, hsuf⟩ := ih c
        generalize hg : t.foldl (fun x c => if key c < key x then c else x) c = r
          at hsplit hpre hsuf ⊢
        cases pre with
        | nil =>
            simp only [List.nil_append] at hsplit
            injection hsplit with h1 h2
            refine ⟨[b], suf, by rw [h1, h2]; rfl, ?_, hsuf⟩
            intro x hx
            simp only [List.mem_cons, List.not_mem_nil, or_false] at hx
            subst hx
            exact h1 ▸ hc
        | cons p ps =>
            simp only [List.cons_append] at hsplit
            injection hsplit with h1 h2
            refine ⟨b :: p :: ps, suf, by rw [h1, h2]; rfl, ?_, hsuf⟩
            intro x hx
            simp only [List.mem_cons] at hx
            rcases hx with hx | hx | hx
            · subst hx
              have hpr : key r < key p := hpre p (by simp)
              exact lt_trans hpr (h1 ▸ hc)
            · subst hx
              exact hpre x (by simp)
            · exact hpre x (by simp [hx])
      · rw [if_neg hc]
        obtain ⟨pre, suf, hsplit, hpre, hsuf⟩ := ih b
        generalize hg : t.foldl (fun x c => if key c < key x then c else x) b = r
          at hsplit hpre hsuf ⊢
        cases pre with
        | nil =>
            simp only [List.nil_append] at hsplit
            injection hsplit with h1 h2
            refine ⟨[], c :: t, by rw [← h1]; rfl, by simp, ?_⟩
            intro x hx
            simp only [List.mem_cons] at hx
            rcases hx with hx | hx
            · subst hx
              exact h1 ▸ le_of_not_lt hc
            · exact hsuf x (h2 ▸ hx)
        | cons p ps =>
            simp only [List.cons_append] at hsplit
            injection hsplit with h1 h2
            have hbr : key r < key b := h1 ▸ hpre p (by simp)
            refine ⟨b :: c :: ps, suf, by rw [h2]; rfl, ?_, hsuf⟩
            intro x hx
            simp only [List.mem_cons] at hx
            rcases hx with hx | hx | hx
            · subst hx; exact hbr
            · subst hx
              exact lt_of_lt_of_le hbr (le_of_not_lt hc)
            · exact hpre x (by simp [hx])

/-- Whitespace collapsing of `image.rs` `normalize_text` (lines 557-574):
runs of whitespace become a single space, then the ends are trimmed. -/
def normalize_text (s : String) : String :=
  (String.mk (s.data.foldl
    (fun (acc : List Char × Bool) ch =>
      if ch.isWhitespace then
        (if acc.2 then acc.1 else acc.1 ++ [' '], true)
      else (acc.1 ++ [ch], false))
    ([], false)).1).trim

/-- The character class rewarded by `score_text` (`image.rs` line 584):
ASCII alphanumerics plus space, hyphen, apostrophe, dot, parens, slash. -/
def allowedChar (c : Char) : Bool :=
  c.isAlphanum || c = ' ' || c = '-' || c = Char.ofNat 39 || c = '.' ||
    c = '(' || c = ')' || c = '/'

/-- Rust `as i32` on an `f32` (here `conf * 100.0`): truncation toward zero,
saturating at the `i32` bounds. -/
def satTruncI32 (q : ℚ) : ℤ :=
  max (-(2 ^ 31)) (min (2 ^ 31 - 1) (if 0 ≤ q then ⌊q⌋ else -⌊-q⌋))

/-- `score_text` (`image.rs` lines 576-595): `i32::MIN / 2 = -2^30` floors the
empty string; otherwise alphanumeric density is rewarded, symbol noise
penalized, the engine confidence added, an alphabetic bonus granted and very
short strings docked 25.  `i32` arithmetic is modelled over `ℤ` (the operands
are bounded by a few times the character count, far from `i32` range for any
string an OCR engine returns). -/
def score_text (text : String) (conf : ℚ) : ℤ :=
  let t := text.trim
  if t = "" then -(2 ^ 30)
  else
    let total : ℤ := t.data.length
    let allowed : ℤ := (t.data.filter allowedChar).length
    let weird := total - allowed
    let base := allowed * 2 - weird * 4 + satTruncI32 (conf * 100)
    let base2 := if t.data.any Char.isAlpha then base + 10 else base
    if total < 3 then base2 - 25 else base2

/-- A raw recognition result `(text, confidence)` mapped to the
`(normalized text, score)` pair that `get_text` tracks. -/
def scoreOf (c : String × ℚ) : String × ℤ :=
  (normalize_text c.1, score_text (normalize_text c.1) c.2)

/-- One `if sc > best_score { update }` step of `get_text`'s candidate loop
(`image.rs` lines 624-628 etc.). -/
def stepCand (st : String × ℤ) (c : String × ℚ) : String × ℤ :=
  if st.2 < (scoreOf c).2 then scoreOf c else st

/-- The theme-binarization candidate loop of `get_text` (`image.rs` lines
632-652) with its early exit: after scoring a candidate, the loop breaks when
that candidate's confidence is at least 0.92 and the current best text is at
least 6 bytes long.  Returns the candidates actually evaluated together with
the final best state. -/
def bwRun : String × ℤ → List (String × ℚ) → List (String × ℚ) × (String × ℤ)
  | st, [] => ([], st)
  | st, c :: rest =>
      let st2 := stepCand st c
      if (92 / 100 : ℚ) ≤ c.2 ∧ 6 ≤ st2.1.utf8ByteSize then
        ([c], st2)
      else
        let res := bwRun st2 rest
        (c :: res.1, res.2)

/-- Selection logic of `Image::get_text` (`image.rs` lines 610-713) for a
fixed recognition outcome per preprocessing candidate, in evaluation order:
raw crop, three theme binarizations (with early exit), theme-inverted, and the
two Otsu polarities.  Pixel preprocessing and the external OCR engine are
abstracted into the per-candidate `(text, confidence)` results, exactly the
stub premise of the claim; the function returns the tracked best text. -/
def get_text (raw bw1 bw2 bw3 inv otsu1 otsu2 : String × ℚ) : String :=
  let st0 : String × ℤ := ("", -(2 ^ 30))
  let st1 := stepCand st0 raw
  let bres := bwRun st1 [bw1, bw2, bw3]
  let st3 := stepCand bres.2 inv
  let st4 := stepCand st3 otsu1
  let st5 := stepCand st4 otsu2
  st5.1

/-- The preprocessing candidates `get_text` actually generates and scores:
the raw candidate, the prefix of the binarization loop up to its early exit,
and the three unconditional tail candidates. -/
def evaluatedCands (raw bw1 bw2 bw3 inv otsu1 otsu2 : String × ℚ) :
    List (String × ℚ) :=
  raw :: (bwRun (stepCand ("", -(2 ^ 30)) raw) [bw1, bw2, bw3]).1 ++
    [inv, otsu1, otsu2]

theorem bwRun_snd : ∀ (l : List (String × ℚ)) (st : String × ℤ),
    (bwRun st l).2 = List.foldl stepCand st (bwRun st l).1 := by
  intro l
  induction l with
  | nil => intro st; rfl
  | cons c rest ih =>
      intro st
      show (bwRun st (c :: rest)).2 = _
      rw [bwRun]
      by_cases hb : (92 / 100 : ℚ) ≤ c.2 ∧ 6 ≤ (stepCand st c).1.utf8ByteSize
      · simp only [if_pos hb]
        rfl
      · simp only [if_neg hb]
        exact ih (stepCand st c)

theorem foldl_stepCand_map : ∀ (l : List (String × ℚ)) (st : String × ℤ),
    List.foldl stepCand st l =
      List.foldl (fun x c => if Prod.snd x < Prod.snd c then c else x) st
        (l.map scoreOf) := by
  intro l
  induction l with
  | nil => intro st; rfl
  | cons c rest ih =>
      intro st
      simp only [List.map_cons, List.foldl_cons]
      exact ih (stepCand st c)

/-- C5: with a fixed recognition outcome per candidate, `get_text` is a pure
function of those outcomes (determinism is immediate), and the text it
returns is that of the earliest highest-scoring entry among the initial empty
state (score `-2^30`) and the evaluated candidates' normalized texts, ties
keeping the earliest. -/
theorem get_text_selects_first_max
    (raw bw1 bw2 bw3 inv otsu1 otsu2 : String × ℚ) :
    ∃ p : String × ℤ,
      IsFirstMax Prod.snd
        (("", -(2 ^ 30)) ::
          (evaluatedCands raw bw1 bw2 bw3 inv otsu1 otsu2).map scoreOf) p ∧
      get_text raw bw1 bw2 bw3 inv otsu1 otsu2 = p.1 := by
  have hfold : get_text raw bw1 bw2 bw3 inv otsu1 otsu2 =
      (List.foldl stepCand ("", -(2 ^ 30))
        (evaluatedCands raw bw1 bw2 bw3 inv otsu1 otsu2)).1 := by
    rw [evaluatedCands]
    simp only [List.foldl_cons, List.foldl_append]
    rw [← bwRun_snd]
    rfl
  refine ⟨List.foldl (fun x c => if Prod.snd x < Prod.snd c then c else x)
      ("", -(2 ^ 30))
      ((evaluatedCands raw bw1 bw2 bw3 inv otsu1 otsu2).map scoreOf), ?_, ?_⟩
  · exact foldl_isFirstMax Prod.snd _ _
  · rw [hfold, foldl_stepCand_map]

/-- Axis-aligned rectangle `Rect` of `relicreward.rs` (lines 26-32). -/
structure Rect where
  x : ℕ
  y : ℕ
  w : ℕ
  h : ℕ
deriving DecidableEq

/-- `Rect::center_x`. -/
def Rect.center_x (r : Rect) : ℕ := r.x + r.w / 2

/-- Parsed reward `RelicReward` of `relicreward.rs` (lines 19-23). -/
structure RelicReward where
  name : String
  owned : ℕ
deriving DecidableEq

/-- Per-frame result `Rewards` of `relicreward.rs` (lines 13-17). -/
structure Rewards where
  timer : ℕ
  rewards : List RelicReward
deriving DecidableEq

/-- Numeric value of a list of ASCII digit characters (most significant
first), as `str::parse` computes it. -/
def natOfDigits (l : List Char) : ℕ :=
  l.foldl (fun a c => a * 10 + (c.toNat - 48)) 0

/-- `u32::from_str` on a non-empty all-digit string: the numeral's value when
it fits in `u32`, failure on overflow. -/
def u32_parse (l : List Char) : Option ℕ :=
  if l = [] then none
  else if natOfDigits l < 2 ^ 32 then some (natOfDigits l) else none

/-- Regex word character (`\w`), restricted to the ASCII fragment all the
OCR-produced inputs live in: alphanumerics and underscore. -/
def isWordChar (c : Char) : Bool := c.isAlphanum || c = '_'

/-- The `\s*x?\s*(\d+)` tail of the owned-count pattern
(`relicreward.rs` line 158), applied after the marker word: skip whitespace,
optionally one `x`/`X`, skip whitespace, then capture a maximal non-empty
digit run (greedily, as the regex engine does; if consuming the optional `x`
leaves no digits, backtracking cannot succeed either, so the committed
consumption below is equivalent). -/
def matchTail (l : List Char) : Option (List Char) :=
  let l1 := l.dropWhile Char.isWhitespace
  let l2 := match l1 with
    | c :: rest => if c = 'x' ∨ c = 'X' then rest else c :: rest
    | [] => []
  let l3 := l2.dropWhile Char.isWhitespace
  let ds := l3.takeWhile Char.isDigit
  if ds.isEmpty then none else some ds

/-- One anchor position of the case-insensitive pattern
`\b(?:OWNED|CRAFTED)\s*x?\s*(\d+)`: `prev` is the character before the
position (`none` at the start of the text).  The word boundary holds exactly
when `prev` is absent or not a word character (the next character, `O`/`C`,
is always a word character when the marker matches). -/
def matchAtPos (prev : Option Char) (l : List Char) : Option (List Char) :=
  let boundary := match prev with
    | none => true
    | some p => !isWordChar p
  if boundary then
    if (l.take 5).map Char.toUpper = "OWNED".data then matchTail (l.drop 5)
    else if (l.take 7).map Char.toUpper = "CRAFTED".data then matchTail (l.drop 7)
    else none
  else none

/-- Leftmost-match search of the regex engine: try every start position from
left to right and return the first capture. -/
def scanMarker : Option Char → List Char → Option (List Char)
  | prev, [] => matchAtPos prev []
  | prev, c :: rest =>
      match matchAtPos prev (c :: rest) with
      | some ds => some ds
      | none => scanMarker (some c) rest

/-- `parse_owned_count` (`relicreward.rs` lines 156-164): first capture of
the owned/crafted pattern, parsed as `u32` (overflow makes the whole function
return `None`; a later, parseable match is *not* tried, matching
`captures(...).get(1).parse().ok()`). -/
def parse_owned_count (s : String) : Option ℕ :=
  (scanMarker none s.data).bind fun ds =>
    if natOfDigits ds < 2 ^ 32 then some (natOfDigits ds) else none

/-- The character immediately before position `i` of `l` (`none` at the
start): the left context the word-boundary check consumes. -/
def pAt (prev : Option Char) (l : List Char) (i : ℕ) : Option Char :=
  if i = 0 then prev else l[i - 1]?
theorem pAt_succ (prev : Option Char) (c : Char) (t : List Char) (k : ℕ) :
    pAt prev (c :: t) (k + 1) = pAt (some c) t k := by
  cases k with
  | zero => simp [pAt]
  | succ j => simp [pAt]

/-- The scanning search returns a capture iff some start position matches, and
the capture is the one of the leftmost matching position. -/
theorem scanMarker_eq_some_iff :
    ∀ (l : List Char) (prev : Option Char) (ds : List Char),
      scanMarker prev l = some ds ↔
        ∃ i, i ≤ l.length ∧ matchAtPos (pAt prev l i) (l.drop i) = some ds ∧
          ∀ j, j < i → matchAtPos (pAt prev l j) (l.drop j) = none := by
  intro l
  induction l with
  | nil =>
      intro prev ds
      constructor
      · intro h
        exact ⟨0, Nat.le_refl 0, h, fun j hj => absurd hj (Nat.not_lt_zero j)⟩
      · rintro ⟨i, hi, hm, -⟩
        have hi0 : i = 0 := Nat.le_zero.mp hi
        subst hi0
        exact hm
  | cons c t ih =>
      intro prev ds
      have hunf : scanMarker prev (c :: t) =
          match matchAtPos prev (c :: t) with
          | some ds => some ds
          | none => scanMarker (some c) t := rfl
      constructor
      · intro h
        rw [hunf] at h
        cases hm : matchAtPos prev (c :: t) with
        | some ds0 =>
            rw [hm] at h
            have hds : ds0 = ds := Option.some.inj h
            subst hds
            exact ⟨0, Nat.zero_le _, hm, fun j hj => absurd hj (Nat.not_lt_zero j)⟩
        | none =>
            rw [hm] at h
            obtain ⟨i, hi, hmi, hlt⟩ := (ih (some c) ds).mp h
            refine ⟨i + 1, Nat.succ_le_succ hi, ?_, ?_⟩
            · rw [pAt_succ]
              exact hmi
            · intro j hj
              cases j with
              | zero => exact hm
              | succ j =>
                  rw [pAt_succ]
                  exact hlt j (Nat.lt_of_succ_lt_succ hj)
      · rintro ⟨i, hi, hm, hlt⟩
        rw [hunf]
        cases i with
        | zero =>
            have hm0 : matchAtPos prev (c :: t) = some ds := hm
            rw [hm0]
        | succ i =>
            have h0 : matchAtPos prev (c :: t) = none := hlt 0 (Nat.succ_pos i)
            rw [h0]
            refine (ih (some c) ds).mpr ⟨i, Nat.le_of_succ_le_succ hi, ?_, ?_⟩
            · rw [← pAt_succ prev]
              exact hm
            · intro j hj
              rw [← pAt_succ prev]
              exact hlt (j + 1) (Nat.succ_lt_succ hj)

/-- C3 (amended): `parse_owned_count` returns `some n` exactly when the
leftmost start position at which the case-insensitive pattern
`\b(OWNED|CRAFTED)\s*x?\s*(\d+)` matches captures a digit run of value
`n < 2^32`; in every other case — in particular when an `Owned`/`Crafted`
marker appears with *no* following number — it returns `none`, which
`parse_reward` turns into an owned count of 0 (never the claimed 1). -/
theorem parse_owned_count_leftmost (s : String) (n : ℕ) :
    parse_owned_count s = some n ↔
      ∃ i ds, i ≤ s.data.length ∧
        matchAtPos (pAt none s.data i) (s.data.drop i) = some ds ∧
        (∀ j, j < i → matchAtPos (pAt none s.data j) (s.data.drop j) = none) ∧
        natOfDigits ds = n ∧ n < 2 ^ 32 := by
  unfold parse_owned_count
  cases hscan : scanMarker none s.data with
  | none =>
      simp only [Option.none_bind]
      constructor
      · intro h
        exact absurd h (by simp)
      · rintro ⟨i, ds, hi, hm, hlt, -, -⟩
        have : scanMarker none s.data = some ds :=
          (scanMarker_eq_some_iff s.data none ds).mpr ⟨i, hi, hm, hlt⟩
        rw [hscan] at this
        exact absurd this (by simp)
  | some ds0 =>
      simp only [Option.some_bind]
      obtain ⟨i0, hi0, hm0, hlt0⟩ := (scanMarker_eq_some_iff s.data none ds0).mp hscan
      constructor
      · intro h
        by_cases hfit : natOfDigits ds0 < 2 ^ 32
        · rw [if_pos hfit] at h
          have hn := Option.some.inj h
          exact ⟨i0, ds0, hi0, hm0, hlt0, hn, hn ▸ hfit⟩
        · rw [if_neg hfit] at h
          exact absurd h (by simp)
      · rintro ⟨i, ds, hi, hm, hlt, hnat, hfit⟩
        have : scanMarker none s.data = some ds :=
          (scanMarker_eq_some_iff s.data none ds).mpr ⟨i, hi, hm, hlt⟩
        rw [hscan] at this
        have hds : ds0 = ds := Option.some.inj this
        subst hds
        rw [hnat, if_pos hfit]

/-- C3 counterexample: on the text `"Owned"` the marker is present (its first
five characters uppercase to `OWNED` at a word boundary) but no number
follows, and `parse_owned_count` yields `none` — so the owned count defaults
to 0, not to the claimed 1. -/
theorem parse_owned_count_marker_without_number :
    parse_owned_count "Owned" = none ∧
      (parse_owned_count "Owned").getD 0 = 0 ∧
      ("Owned".data.take 5).map Char.toUpper = "OWNED".data := by decide

/-- C3 witness: `"Owned x3"` matches at position 0 with capture `3`. -/
theorem parse_owned_count_leftmost_witness :
    parse_owned_count "Owned x3" = some 3 :=
  (parse_owned_count_leftmost "Owned x3" 3).mpr
    ⟨0, ['3'], by decide, by decide,
      fun j hj => absurd hj (Nat.not_lt_zero j), by decide, by decide⟩

/-- Sum of a channel over a view's rectangle (the accumulation loop of
`Image::average_color`, `image.rs` lines 335-355); `u32` sums modelled as `ℕ`
(they stay far below `2^32` for the small corner patches this development
evaluates). -/
def Image.sumPixels (v : Image) (f : Color → ℕ) : ℕ :=
  ((List.range v.height).map fun dy =>
    ((List.range v.width).map fun dx =>
      f (v.pixel (v.x1 + dx) (v.y1 + dy))).sum).sum

/-- `Image::average_color`: per-channel integer mean over the view.  (For an
empty view Rust panics on division by zero; callers in this development only
average non-empty patches, where `ℕ` division is exact.) -/
def Image.average_color (v : Image) : Color :=
  { r := v.sumPixels (fun c => c.r) / (v.width * v.height)
    g := v.sumPixels (fun c => c.g) / (v.width * v.height)
    b := v.sumPixels (fun c => c.b) / (v.width * v.height) }

/-- Rust `split_whitespace`: maximal non-whitespace runs, in order, empties
discarded.  One step of the accumulating fold: finished words plus the
current word reversed. -/
def splitWsStep (acc : List (List Char) × List Char) (c : Char) :
    List (List Char) × List Char :=
  if c.isWhitespace then
    if acc.2 = [] then acc else (acc.1 ++ [acc.2.reverse], [])
  else (acc.1, c :: acc.2)

/-- Rust `str::split_whitespace` over a string's characters. -/
def split_whitespace (s : String) : List String :=
  let fin := s.data.foldl splitWsStep ([], [])
  (if fin.2 = [] then fin.1 else fin.1 ++ [fin.2.reverse]).map String.mk

/-- `normalize_name` (`relicreward.rs` lines 147-154): newlines to spaces,
whitespace-split, rejoin with single spaces, trim.  (`replace('\n', " ")`
substitutes one space per newline character, hence the per-character map.) -/
def normalize_name (raw : String) : String :=
  (String.intercalate " "
    (split_whitespace
      (String.mk (raw.data.map fun c => if c = '\n' then ' ' else c)))).trim

/-- `parse_reward` (`relicreward.rs` lines 123-145), with the composed
text-extraction capability (`get_text` with its theme and OCR engine)
abstracted as `gtext`, per the claims' per-slot text premise.  All geometry is
the source's: bottom strip for the name, top strip for the owned count,
margins and strip heights rounded from fixed ratios of the slot size. -/
def parse_reward (image : Image) (slot : Rect) (gtext : Image → String) :
    RelicReward :=
  let slot_img := image.sub_image slot.x slot.y slot.w slot.h
  let margin := max (rround ((slot.w : ℚ) * (5 / 100))) 1
  let name_h := max (rround ((slot.h : ℚ) * (30 / 100))) 12
  let name_y := slot.h - name_h
  let name_w := max (slot.w - margin * 2) 1
  let name_img := slot_img.sub_image margin name_y name_w name_h
  let name := normalize_name (gtext name_img)
  let owned_h := max (rround ((slot.h : ℚ) * (14 / 100))) 10
  let owned_img := slot_img.sub_image margin 0 name_w owned_h
  let owned := (parse_owned_count (gtext owned_img)).getD 0
  { name := name, owned := owned }

/-- The timer region geometry of `detect_timer` (`relicreward.rs` lines
166-184): average slot height, top row coordinate, a square whose side is a
fixed ratio of the slot height above the row's x-center, clamped to the
image. -/
def timerRect (image : Image) (slots : List Rect) : ℕ × ℕ × ℕ × ℕ :=
  let avg_h := (slots.foldl (fun a r => a + r.h) 0) / max slots.length 1
  let top_y := ((slots.map Rect.y).min?).getD 0
  let timer_size := max (rround ((avg_h : ℚ) * 64 / 235)) 16
  let timer_offset := max (rround ((avg_h : ℚ) * 90 / 235)) 10
  let center_x := (slots.foldl (fun a r => a + r.center_x) 0) / max slots.length 1
  let x := center_x - timer_size / 2
  let y := top_y - timer_offset
  (x, y, min timer_size (image.width - x), min timer_size (image.height - y))

/-- `detect_timer` (`relicreward.rs` lines 166-190): crop the timer region,
text-extract (abstracted `gtext`), keep every ASCII digit of the text in
order, and parse the concatenation as `u32` (0 on absence or overflow). -/
def detect_timer (image : Image) (slots : List Rect) (gtext : Image → String) :
    ℕ :=
  match timerRect image slots with
  | (x, y, w, h) =>
      if w = 0 ∨ h = 0 then 0
      else
        (u32_parse ((gtext (image.sub_image x y w h)).data.filter
          Char.isDigit)).getD 0

/-- `get_rewards` (`relicreward.rs` lines 65-82) with the contour-based slot
detection (external `imageproc` segmentation) supplied as the detected slot
list and text extraction abstracted as `gtext`: empty detection yields the
neutral result, otherwise the timer plus one parsed reward per slot. -/
def get_rewards (image : Image) (slots : List Rect) (gtext : Image → String) :
    Rewards :=
  if slots = [] then { timer := 0, rewards := [] }
  else
    { timer := detect_timer image slots gtext
      rewards := slots.map fun slot => parse_reward image slot gtext }

/-- The highlight patch sampling of `get_selected` (`relicreward.rs` lines
94-115) for slot index `i`: a small square near the slot's top-right corner,
skipped (`continue`) when the clamped patch is empty, otherwise scored by the
deviation of its average color from the theme's secondary color. -/
def selConsider (image : Image) (theme : Theme) (i : ℕ) (slot : Rect) :
    Option (ℕ × ℚ) :=
  let size := max (rround ((slot.w : ℚ) * 12 / 235)) 6
  let pad_r := max (rround ((slot.w : ℚ) * 5 / 235)) 1
  let pad_t := max (rround ((slot.h : ℚ) * 4 / 235)) 1
  let x := slot.x + (slot.w - (size + pad_r))
  let y := slot.y + pad_t
  let sw := min size (image.width - x)
  let sh := min size (image.height - y)
  if sw = 0 ∨ sh = 0 then none
  else some (i, ((image.sub_image x y sw sh).average_color).deviation
    theme.secondary)

/-- The running-minimum loop of `get_selected`: `best` is replaced only when
a considered slot has strictly smaller deviation. -/
def selLoop (image : Image) (theme : Theme) :
    ℕ → List Rect → Option (ℕ × ℚ) → Option (ℕ × ℚ)
  | _, [], best => best
  | i, s :: rest, best =>
      match selConsider image theme i s with
      | none => selLoop image theme (i + 1) rest best
      | some c =>
          match best with
          | none => selLoop image theme (i + 1) rest (some c)
          | some b =>
              selLoop image theme (i + 1) rest
                (some (if c.2 < b.2 then c else b))

/-- The indexed `(slot index, deviation)` entries that `get_selected`
actually considers (slots with an empty clamped patch are skipped). -/
def consideredSlots (image : Image) (theme : Theme) :
    ℕ → List Rect → List (ℕ × ℚ)
  | _, [] => []
  | i, s :: rest =>
      match selConsider image theme i s with
      | none => consideredSlots image theme (i + 1) rest
      | some c => c :: consideredSlots image theme (i + 1) rest

/-- `get_selected` (`relicreward.rs` lines 84-121) over the detected slot
list: the minimum-deviation considered slot, gated by the hard acceptance
threshold `dev < 12.0` of line 120 — above it the function returns `None`
even for a non-empty layout. -/
def get_selected (image : Image) (theme : Theme) (slots : List Rect) :
    Option ℕ :=
  if slots = [] then none
  else
    (selLoop image theme 0 slots none).bind fun b =>
      if b.2 < 12 then some b.1 else none

/-- C2 (amended): `get_rewards` filters nothing — it returns exactly one
reward entry per detected slot, including slots whose extracted name
normalizes to the empty string (which appear as entries with empty name, not
as errors; the `Rewards` type has no error channel). -/
theorem get_rewards_one_entry_per_slot (image : Image) (slots : List Rect)
    (gtext : Image → String) :
    (get_rewards image slots gtext).rewards.length = slots.length := by
  by_cases hs : slots = []
  · subst hs; rfl
  · simp [get_rewards, hs]

/-- C2 counterexample: a detected slot whose extracted texts are all empty is
*not* dropped — `get_rewards` returns it as a reward with empty name (and
owned count 0), so the rewards list is not empty as the claim requires. -/
theorem get_rewards_keeps_empty_name :
    (get_rewards ⟨0, 0, 10, 10, 10, []⟩ [⟨0, 0, 8, 8⟩] (fun _ => "")).rewards =
      [{ name := "", owned := 0 }] := by with_unfolding_all decide

/-- All ASCII digits of the recognized text, concatenated in order and parsed
as `u32` (0 when there is no digit or the value overflows): the amended C4
behaviour, written as a single conditional fold over the text. -/
def specAllDigitsVal (s : String) : ℕ :=
  let v := s.data.foldl
    (fun a c => if c.isDigit then a * 10 + (c.toNat - 48) else a) 0
  if s.data.any Char.isDigit ∧ v < 2 ^ 32 then v else 0

/-- The value of the *first* maximal digit run of the text (0 if none):
what the original C4 claim asserts the timer to be. -/
def specFirstDigitRunVal (s : String) : ℕ :=
  natOfDigits ((s.data.dropWhile fun c => !c.isDigit).takeWhile Char.isDigit)

theorem foldl_filter_digits : ∀ (l : List Char) (a : ℕ),
    (l.filter Char.isDigit).foldl (fun a c => a * 10 + (c.toNat - 48)) a =
      l.foldl (fun a c => if c.isDigit then a * 10 + (c.toNat - 48) else a) a := by
  intro l
  induction l with
  | nil => intro a; rfl
  | cons c t ih =>
      intro a
      by_cases hc : Char.isDigit c
      · simp only [List.filter_cons, hc, if_pos, List.foldl_cons, ih]
      · simp only [List.filter_cons, List.foldl_cons]
        rw [if_neg (by simp [hc]), if_neg hc]
        exact ih a

theorem u32_parse_filter_digits (s : String) :
    (u32_parse (s.data.filter Char.isDigit)).getD 0 = specAllDigitsVal s := by
  by_cases hany : s.data.any Char.isDigit
  · have hne : s.data.filter Char.isDigit ≠ [] := by
      intro hnil
      obtain ⟨x, hx, hpx⟩ := List.any_eq_true.mp hany
      have := List.filter_eq_nil_iff.mp hnil x hx
      simp [hpx] at this
    unfold u32_parse specAllDigitsVal natOfDigits
    rw [if_neg hne, foldl_filter_digits]
    by_cases hfit :
        s.data.foldl (fun a c => if c.isDigit then a * 10 + (c.toNat - 48) else a) 0 < 2 ^ 32
    · rw [if_pos hfit, if_pos ⟨hany, hfit⟩]
      rfl
    · rw [if_neg hfit, if_neg (fun hand => hfit hand.2)]
      rfl
  · have hnil : s.data.filter Char.isDigit = [] := by
      rw [List.filter_eq_nil_iff]
      intro x hx hpx
      exact hany (List.any_eq_true.mpr ⟨x, hx, hpx⟩)
    unfold u32_parse specAllDigitsVal
    rw [if_pos hnil, if_neg (fun hand => hany hand.1)]
    rfl

/-- C4 (amended): whenever the clamped timer region is non-empty, the timer
`detect_timer` computes equals the `u32` value of the concatenation of *all*
ASCII digits in the text recognized from that region — not just its first
digit run — and it is 0 exactly when the text has no digit or the
concatenation overflows `u32`. -/
theorem detect_timer_concats_all_digits (image : Image) (slots : List Rect)
    (gtext : Image → String) (x y w h : ℕ)
    (htr : timerRect image slots = (x, y, w, h)) (hw : 0 < w) (hh : 0 < h) :
    detect_timer image slots gtext =
      specAllDigitsVal (gtext (image.sub_image x y w h)) := by
  unfold detect_timer
  rw [htr]
  dsimp only
  have hcond : ¬(w = 0 ∨ h = 0) := by omega
  rw [if_neg hcond]
  exact u32_parse_filter_digits _

/-- C4 counterexample: with recognized text `"1a2"` the code returns 12 (all
digits concatenated) while the claim's first-run-of-digits value is 1. -/
theorem detect_timer_not_first_run :
    detect_timer ⟨0, 0, 200, 200, 200, []⟩ [⟨50, 50, 40, 40⟩]
        (fun _ => "1a2") = 12 ∧
      specFirstDigitRunVal "1a2" = 1 := by with_unfolding_all decide

/-- C4 witness: the amended theorem applied to a concrete frame whose timer
region reads `"23"`. -/
theorem detect_timer_concats_all_digits_witness :
    detect_timer ⟨0, 0, 200, 200, 200, []⟩ [⟨50, 50, 40, 40⟩]
        (fun _ => "23") = 23 := by
  have h := detect_timer_concats_all_digits ⟨0, 0, 200, 200, 200, []⟩
    [⟨50, 50, 40, 40⟩] (fun _ => "23") 62 35 16 16
    (by with_unfolding_all decide) (by decide) (by decide)
  rw [h]
  with_unfolding_all decide

theorem selLoop_some (image : Image) (theme : Theme) :
    ∀ (l : List Rect) (i : ℕ) (b : ℕ × ℚ),
      selLoop image theme i l (some b) =
        some (List.foldl (fun x c => if Prod.snd c < Prod.snd x then c else x) b
          (consideredSlots image theme i l)) := by
  intro l
  induction l with
  | nil => intro i b; rfl
  | cons s rest ih =>
      intro i b
      cases hc : selConsider image theme i s with
      | none =>
          simp only [selLoop, consideredSlots, hc]
          exact ih (i + 1) b
      | some c =>
          simp only [selLoop, consideredSlots, hc, List.foldl_cons]
          exact ih (i + 1) (if c.2 < b.2 then c else b)

theorem selLoop_none (image : Image) (theme : Theme) :
    ∀ (l : List Rect) (i : ℕ),
      selLoop image theme i l none =
        match consideredSlots image theme i l with
        | [] => none
        | c :: t =>
            some (List.foldl (fun x c => if Prod.snd c < Prod.snd x then c else x)
              c t) := by
  intro l
  induction l with
  | nil => intro i; rfl
  | cons s rest ih =>
      intro i
      cases hc : selConsider image theme i s with
      | none =>
          simp only [selLoop, consideredSlots, hc]
          exact ih (i + 1)
      | some c =>
          simp only [selLoop, consideredSlots, hc]
          exact selLoop_some image theme rest (i + 1) c

/-- C1 (amended): over the considered slots (those whose clamped corner patch
is non-empty), `get_selected` computes the earliest index of minimal
deviation from `theme.secondary` and returns it *only when that deviation is
strictly below the hard ceiling 12.0*; it returns `none` when the minimum
deviation is 12.0 or more, or when nothing is considered — so a non-empty
layout can yield a `none` result, contrary to the original claim. -/
theorem get_selected_first_min (image : Image) (theme : Theme)
    (slots : List Rect) :
    (consideredSlots image theme 0 slots = [] ∧
       get_selected image theme slots = none) ∨
    (∃ r : ℕ × ℚ,
       IsFirstMin Prod.snd (consideredSlots image theme 0 slots) r ∧
       get_selected image theme slots =
         if r.2 < 12 then some r.1 else none) := by
  by_cases hs : slots = []
  · subst hs
    left
    exact ⟨rfl, rfl⟩
  · cases hcon : consideredSlots image theme 0 slots with
    | nil =>
        left
        refine ⟨rfl, ?_⟩
        unfold get_selected
        rw [if_neg hs, selLoop_none image theme slots 0, hcon]
        rfl
    | cons c t =>
        right
        refine ⟨List.foldl (fun x c => if Prod.snd c < Prod.snd x then c else x)
          c t, ?_, ?_⟩
        · exact foldl_isFirstMin Prod.snd t c
        · unfold get_selected
          rw [if_neg hs, selLoop_none image theme slots 0, hcon]
          rfl

/-- C1 counterexample: one detected (and considered) slot whose corner patch
averages black against a white `theme.secondary` has deviation 8000 ≥ 12, and
`get_selected` returns `none` for this non-empty layout. -/
theorem get_selected_none_on_nonempty_layout :
    get_selected ⟨0, 0, 12, 12, 12, List.replicate 144 Color.BLACK⟩
        ⟨Color.BLACK, Color.WHITE⟩ [⟨0, 0, 10, 10⟩] = none ∧
      consideredSlots ⟨0, 0, 12, 12, 12, List.replicate 144 Color.BLACK⟩
        ⟨Color.BLACK, Color.WHITE⟩ 0 [⟨0, 0, 10, 10⟩] ≠ [] := by
  with_unfolding_all decide

/-- Bit `i` of the packed row-major mask: `(mask.0[i / 8] >> (i % 8)) & 1`
(`image.rs` lines 418). -/
def maskBit (m : List ℕ) (i : ℕ) : Bool :=
  m.getD (i / 8) 0 / 2 ^ (i % 8) % 2 == 1

/-- The loop body of `average_deviation_masked` (`image.rs` lines 415-429):
on a set mask bit, count the pixel and accumulate the luma distance
`|luma a - luma b| / 255`; otherwise leave the accumulator unchanged.  The
row-major pixel index `i` decomposes as `x = i % w`, `y = i / w`. -/
def admStep (a b : Image) (m : List ℕ) (w : ℕ) (acc : ℕ × ℚ) (i : ℕ) :
    ℕ × ℚ :=
  if maskBit m i then
    (acc.1 + 1,
      acc.2 + (((((a.pixel (a.x1 + i % w) (a.y1 + i / w)).luma : ℤ) -
        (b.pixel (b.x1 + i % w) (b.y1 + i / w)).luma).natAbs : ℚ) / 255))
  else acc

/-- `Image::average_deviation_masked` (`image.rs` lines 392-436): `f32::MAX`
when the two views' shapes differ; otherwise the mean masked luma distance,
and 0 when no mask bit over the region is set (`count == 0`).  The `f32`
accumulation is modelled over `ℚ` (exact for the all-masked-out case the
claim concerns, where the sum is empty). -/
def average_deviation_masked (a b : Image) (m : List ℕ) : ℚ :=
  if a.width ≠ b.width then f32_MAX
  else if a.height ≠ b.height then f32_MAX
  else
    let acc := (List.range (a.height * a.width)).foldl
      (admStep a b m a.width) (0, 0)
    if acc.1 = 0 then 0 else acc.2 / (acc.1 : ℚ)

theorem admStep_unset (a b : Image) (m : List ℕ) (w : ℕ) (acc : ℕ × ℚ)
    (i : ℕ) (h : maskBit m i = false) : admStep a b m w acc i = acc := by
  simp [admStep, h]

theorem foldl_admStep_unset (a b : Image) (m : List ℕ) (w : ℕ) :
    ∀ (l : List ℕ) (acc : ℕ × ℚ), (∀ i ∈ l, maskBit m i = false) →
      l.foldl (admStep a b m w) acc = acc := by
  intro l
  induction l with
  | nil => intro acc _; rfl
  | cons c t ih =>
      intro acc hall
      rw [List.foldl_cons, admStep_unset a b m w acc c (hall c (by simp))]
      exact ih acc fun i hi => hall i (by simp [hi])

/-- C10: for equal-shaped views and a mask that covers the region (so the
Rust slice indexing is in bounds) but has no set bit over it, the masked
count is 0 and `average_deviation_masked` returns 0.0 — a perfect match, not
the shape-mismatch sentinel `f32::MAX`. -/
theorem average_deviation_masked_all_masked_out (a b : Image) (m : List ℕ)
    (hw : a.width = b.width) (hh : a.height = b.height)
    (_hlen : a.height * a.width ≤ 8 * m.length)
    (hbits : ∀ i < a.height * a.width, maskBit m i = false) :
    average_deviation_masked a b m = 0 := by
  unfold average_deviation_masked
  rw [if_neg (by simp [hw]), if_neg (by simp [hh])]
  rw [foldl_admStep_unset a b m a.width (List.range (a.height * a.width))
    (0, 0) (fun i hi => hbits i (List.mem_range.mp hi))]
  rfl

/-- C10 witness: two identical 2×2 views under an all-zero one-byte mask
(8 bits ≥ 4 pixels) compare to deviation 0. -/
theorem average_deviation_masked_all_masked_out_witness :
    average_deviation_masked
      ⟨0, 0, 2, 2, 2, List.replicate 4 ⟨1, 2, 3⟩⟩
      ⟨0, 0, 2, 2, 2, List.replicate 4 ⟨9, 8, 7⟩⟩ [0] = 0 :=
  average_deviation_masked_all_masked_out
    ⟨0, 0, 2, 2, 2, List.replicate 4 ⟨1, 2, 3⟩⟩
    ⟨0, 0, 2, 2, 2, List.replicate 4 ⟨9, 8, 7⟩⟩ [0]
    (by decide) (by decide) (by decide) (by decide)

end WfBuddy
